import Mathlib

/-!
Shallow embedding of the `ThreadSafeLRU<K, V>` cache from `Chapter 3/lru.cpp`.

The C++ class keeps, under one mutex:
  * `map  : std::unordered_map<K, shared_ptr<Node<K,V>>>` — the index;
  * a doubly-linked list of nodes between two sentinels `head`/`tail`,
    ordered most-recently-used first;
  * counters `size`, `hits`, `misses` and the fixed `capacity`.

Here the recency list is the list of keys from `head->next` to `tail->prev`
(most-recently-used first, sentinels omitted), and the index is an
association list from keys to values (the node's `value` field lives in the
node the index points at, so key-to-value association is what the index
gives access to).  All operations happen inside one critical section in the
source, so each public member function is one state-transformer here.
-/

namespace LRUSpec

variable {K V : Type} [DecidableEq K]

/-- Error conditions of the source: `std::invalid_argument` thrown by the
constructor on zero capacity, and `std::out_of_range` ("Key not found")
thrown by `get` on an absent key. -/
inductive LRUError where
  | invalidCapacity
  | keyNotFound
deriving DecidableEq, Repr

/-- State of `ThreadSafeLRU<K,V>`: `map` is the index (`unordered_map`),
`order` the keys on the recency list from `head->next` (most recently used)
to `tail->prev` (least recently used), with the `capacity`, `size`, `hits`
and `misses` counters. -/
structure LRU (K V : Type) where
  capacity : Nat
  size : Nat
  map : List (K × V)
  order : List K
  hits : Nat
  misses : Nat
deriving DecidableEq, Repr

/-- `map.find(key)` on the index: the value stored for `key`, if present. -/
def mapFind (m : List (K × V)) (k : K) : Option V :=
  match m with
  | [] => none
  | (a, v) :: rest => if a = k then some v else mapFind rest k

/-- `map.erase(key)`: drop the entry for `key` from the index. -/
def mapErase (m : List (K × V)) (k : K) : List (K × V) :=
  match m with
  | [] => []
  | (a, v) :: rest => if a = k then rest else (a, v) :: mapErase rest k

/-- `node->value = value` seen through the index: replace the value stored
for `key`, leaving the key set untouched. -/
def mapUpdate (m : List (K × V)) (k : K) (v : V) : List (K × V) :=
  match m with
  | [] => []
  | (a, w) :: rest => if a = k then (a, v) :: rest else (a, w) :: mapUpdate rest k v

/-- The key set of the index. -/
def mapKeys (m : List (K × V)) : List K := m.map Prod.fst

/-- `ThreadSafeLRU::evictLRU`: a no-op when `size == 0`; otherwise take
`tail->prev` and, unless it is the `head` sentinel (empty list), unlink it,
erase its key from the index and decrement `size`. -/
def evictLRU (s : LRU K V) : LRU K V :=
  if s.size = 0 then s
  else
    match s.order.getLast? with
    | none => s
    | some lk =>
        { s with order := s.order.dropLast, map := mapErase s.map lk, size := s.size - 1 }

/-- `ThreadSafeLRU::ThreadSafeLRU(unsigned cap)`: throws
`std::invalid_argument` when `cap == 0`, otherwise produces the empty cache
with the given capacity (sentinels linked to each other: empty recency
list). -/
def mkLRU (cap : Nat) : Except LRUError (LRU K V) :=
  if cap = 0 then .error .invalidCapacity
  else .ok { capacity := cap, size := 0, map := [], order := [], hits := 0, misses := 0 }

/-- The constructor's default argument: `ThreadSafeLRU(unsigned cap = 10)`
called with no explicit capacity. -/
def mkLRUDefault : Except LRUError (LRU K V) := mkLRU 10

/-- `ThreadSafeLRU::get`: on a miss increment `misses` and throw
`std::out_of_range`; on a hit move the node to the front
(`removeNode` then `addToFront`, i.e. erase the key from its position and
cons it), increment `hits` and return the node's value. -/
def get (s : LRU K V) (k : K) : Except LRUError V × LRU K V :=
  match mapFind s.map k with
  | none => (.error .keyNotFound, { s with misses := s.misses + 1 })
  | some v => (.ok v, { s with order := k :: s.order.erase k, hits := s.hits + 1 })

/-- `ThreadSafeLRU::contains`: `map.find(key) != map.end()`; the state is
returned unchanged (the function only reads under the lock). -/
def contains (s : LRU K V) (k : K) : Bool × LRU K V :=
  ((mapFind s.map k).isSome, s)

/-- `ThreadSafeLRU::put` (both the copy and the move overload perform the
same state change): if the key exists, overwrite the node's value and move
it to the front; otherwise create a node, index it, link it at the front,
increment `size`, and if `size > capacity` call `evictLRU`. -/
def put (s : LRU K V) (k : K) (v : V) : LRU K V :=
  match mapFind s.map k with
  | some _ => { s with map := mapUpdate s.map k v, order := k :: s.order.erase k }
  | none =>
      let s1 : LRU K V :=
        { s with map := (k, v) :: s.map, order := k :: s.order, size := s.size + 1 }
      if s1.size > s1.capacity then evictLRU s1 else s1

/-- `ThreadSafeLRU::remove`: `false` and no change when the key is absent;
otherwise unlink the node, erase the index entry, decrement `size`, return
`true`. -/
def remove (s : LRU K V) (k : K) : Bool × LRU K V :=
  match mapFind s.map k with
  | none => (false, s)
  | some _ =>
      (true, { s with map := mapErase s.map k, order := s.order.erase k,
                      size := s.size - 1 })

/-- One public cache operation (the four key-indexed member functions). -/
inductive Op (K V : Type) where
  | get (k : K)
  | put (k : K) (v : V)
  | remove (k : K)
  | contains (k : K)
deriving DecidableEq, Repr

/-- The state change of one completed operation (return values dropped). -/
def applyOp (s : LRU K V) : Op K V → LRU K V
  | .get k => (get s k).2
  | .put k v => put s k v
  | .remove k => (remove s k).2
  | .contains k => (contains s k).2

/-- Run a sequence of operations left to right. -/
def runOps (s : LRU K V) (ops : List (Op K V)) : LRU K V :=
  ops.foldl applyOp s

/-- The cross-structure invariant of the cache: `size` within capacity, the
index and the recency list carrying the same keys (same multiset, hence
same set and same count), no key twice on the list, and `size` equal to the
list length. -/
structure Inv (s : LRU K V) : Prop where
  size_le : s.size ≤ s.capacity
  keys_perm : (mapKeys s.map).Perm s.order
  nodup : s.order.Nodup
  size_eq : s.size = s.order.length

/-- The state the constructor produces on success (sentinels linked, all
counters zero). -/
def freshLRU (cap : Nat) : LRU K V :=
  { capacity := cap, size := 0, map := [], order := [], hits := 0, misses := 0 }

/-- The spec's capacity-3 scenario, with a = 1, b = 2, c = 3, d = 4:
put(a,1), put(b,2), put(c,3), get(a), put(d,4). -/
def exampleTrace : List (Op Nat Nat) :=
  [Op.put 1 1, Op.put 2 2, Op.put 3 3, Op.get 1, Op.put 4 4]

/-- The cache the spec's capacity-3 scenario produces. -/
def exampleCache : LRU Nat Nat := runOps (freshLRU 3) exampleTrace

/-- The cache of the capacity-3 scenario just before the overflowing
put(d,4): keys a = 1, b = 2, c = 3 with a most recently used. -/
def exampleCachePre : LRU Nat Nat :=
  runOps (freshLRU 3) [Op.put 1 1, Op.put 2 2, Op.put 3 3, Op.get 1]

/-- A small concrete cache used to instantiate the contract theorems:
capacity 3, one entry (1 ↦ 5). -/
def sEx : LRU Nat Nat :=
  { capacity := 3, size := 1, map := [(1, 5)], order := [1], hits := 0, misses := 0 }

/-! ### Association-list (index) lemmas -/

theorem mapKeys_nil : mapKeys ([] : List (K × V)) = [] := rfl

theorem mapKeys_cons (a : K) (v : V) (m : List (K × V)) :
    mapKeys ((a, v) :: m) = a :: mapKeys m := rfl

theorem mapFind_eq_none_iff (m : List (K × V)) (k : K) :
    mapFind m k = none ↔ k ∉ mapKeys m := by
  induction m with
  | nil => simp [mapFind, mapKeys]
  | cons p rest ih =>
    obtain ⟨a, w⟩ := p
    by_cases h : a = k
    · subst h
      simp [mapFind, mapKeys_cons]
    · rw [mapFind, if_neg h, mapKeys_cons]
      simp only [List.mem_cons, not_or]
      constructor
      · intro hn
        exact ⟨fun hk => h hk.symm, ih.mp hn⟩
      · intro hn
        exact ih.mpr hn.2

theorem mem_mapKeys_of_find (m : List (K × V)) (k : K) (v : V)
    (h : mapFind m k = some v) : k ∈ mapKeys m := by
  by_contra hmem
  rw [← mapFind_eq_none_iff] at hmem
  rw [h] at hmem
  cases hmem

theorem mapKeys_update (m : List (K × V)) (k : K) (v : V) :
    mapKeys (mapUpdate m k v) = mapKeys m := by
  induction m with
  | nil => rfl
  | cons p rest ih =>
    obtain ⟨a, w⟩ := p
    by_cases h : a = k
    · simp [mapUpdate, h, mapKeys_cons]
    · simp [mapUpdate, h, mapKeys_cons, ih]

theorem mapKeys_erase (m : List (K × V)) (k : K) :
    mapKeys (mapErase m k) = (mapKeys m).erase k := by
  induction m with
  | nil => rfl
  | cons p rest ih =>
    obtain ⟨a, w⟩ := p
    by_cases h : a = k
    · subst h
      simp [mapErase, mapKeys_cons]
    · rw [mapKeys_cons, List.erase_cons_tail (by simp [h])]
      simp [mapErase, h, mapKeys_cons, ih]

theorem mapFind_erase_self (m : List (K × V)) (k : K)
    (hnd : (mapKeys m).Nodup) : mapFind (mapErase m k) k = none := by
  induction m with
  | nil => rfl
  | cons p rest ih =>
    obtain ⟨a, w⟩ := p
    rw [mapKeys_cons] at hnd
    by_cases h : a = k
    · subst h
      rw [mapFind_eq_none_iff]
      simp only [mapErase, if_pos rfl]
      exact (List.nodup_cons.mp hnd).1
    · simp [mapErase, h, mapFind, ih (List.nodup_cons.mp hnd).2]

theorem mapFind_update_self (m : List (K × V)) (k : K) (v w : V)
    (h : mapFind m k = some w) : mapFind (mapUpdate m k v) k = some v := by
  induction m with
  | nil => cases h
  | cons p rest ih =>
    obtain ⟨a, u⟩ := p
    by_cases ha : a = k
    · simp [mapUpdate, ha, mapFind]
    · rw [mapFind, if_neg ha] at h
      simp [mapUpdate, ha, mapFind, ih h]

/-! ### General list lemmas -/

theorem erase_getLast_of_nodup (l : List K) (lk : K)
    (h : l.getLast? = some lk) (hnd : l.Nodup) : l.erase lk = l.dropLast := by
  rcases List.eq_nil_or_concat l with rfl | ⟨L, b, rfl⟩
  · cases h
  · rw [List.concat_eq_append] at *
    rw [List.getLast?_concat] at h
    cases h
    have hb : lk ∉ L := by
      have hdisj := List.disjoint_of_nodup_append hnd
      intro hmem
      exact hdisj hmem (List.mem_singleton_self _)
    rw [List.erase_append_right _ hb, List.dropLast_concat]
    simp

theorem not_mem_dropLast_of_getLast (l : List K) (lk : K)
    (h : l.getLast? = some lk) (hnd : l.Nodup) : lk ∉ l.dropLast := by
  rcases List.eq_nil_or_concat l with rfl | ⟨L, b, rfl⟩
  · cases h
  · rw [List.concat_eq_append] at *
    rw [List.getLast?_concat] at h
    cases h
    rw [List.dropLast_concat]
    intro hmem
    exact List.disjoint_of_nodup_append hnd hmem (List.mem_singleton_self _)

theorem take_append_take (a b : List K) (c : Nat) :
    (a ++ b.take c).take c = (a ++ b).take c := by
  rw [List.take_append_eq_append_take, List.take_append_eq_append_take,
    List.take_take, Nat.min_eq_left (Nat.sub_le c a.length)]

theorem getLast?_cons_of_ne_nil (k : K) (l : List K) (h : l ≠ []) :
    (k :: l).getLast? = l.getLast? := by
  cases l with
  | nil => exact absurd rfl h
  | cons b t => exact List.getLast?_cons_cons

theorem dropLast_cons_of_ne_nil (k : K) (l : List K) (h : l ≠ []) :
    (k :: l).dropLast = k :: l.dropLast := by
  cases l with
  | nil => exact absurd rfl h
  | cons b t => rfl

/-! ### Shapes of the operations -/

theorem evictLRU_capacity (s : LRU K V) : (evictLRU s).capacity = s.capacity := by
  unfold evictLRU
  split
  · rfl
  · split <;> rfl

theorem put_existing_eq (s : LRU K V) (k : K) (v w : V)
    (h : mapFind s.map k = some w) :
    put s k v = { s with map := mapUpdate s.map k v, order := k :: s.order.erase k } := by
  unfold put
  rw [h]

theorem put_fresh_no_evict (s : LRU K V) (k : K) (v : V)
    (hk : mapFind s.map k = none) (hle : s.size + 1 ≤ s.capacity) :
    put s k v
      = { s with map := (k, v) :: s.map, order := k :: s.order, size := s.size + 1 } := by
  unfold put
  rw [hk]
  simp only []
  rw [if_neg (by omega)]

theorem put_fresh_overflow_eq (s : LRU K V) (k : K) (v : V)
    (hk : mapFind s.map k = none) (hgt : s.capacity < s.size + 1) :
    put s k v = { s with
        map := mapErase ((k, v) :: s.map)
                 ((k :: s.order).getLast (List.cons_ne_nil k s.order)),
        order := (k :: s.order).dropLast,
        size := s.size } := by
  unfold put
  rw [hk]
  simp only []
  rw [if_pos hgt]
  unfold evictLRU
  simp only []
  rw [if_neg (Nat.succ_ne_zero s.size)]
  rw [List.getLast?_eq_getLast _ (List.cons_ne_nil k s.order)]
  simp

theorem put_capacity (s : LRU K V) (k : K) (v : V) :
    (put s k v).capacity = s.capacity := by
  unfold put
  cases h : mapFind s.map k with
  | some w => rfl
  | none =>
    simp only []
    split
    · exact evictLRU_capacity _
    · rfl

theorem applyOp_capacity (s : LRU K V) (op : Op K V) :
    (applyOp s op).capacity = s.capacity := by
  cases op with
  | get k => cases h : mapFind s.map k <;> simp [applyOp, get, h]
  | put k v => exact put_capacity s k v
  | remove k => cases h : mapFind s.map k <;> simp [applyOp, remove, h]
  | contains k => rfl

theorem mapKeys_evictLRU_subset (s : LRU K V) :
    mapKeys (evictLRU s).map ⊆ mapKeys s.map := by
  unfold evictLRU
  split
  · exact fun x hx => hx
  · split
    · exact fun x hx => hx
    · simp only []
      rw [mapKeys_erase]
      exact (List.erase_sublist _ _).subset

theorem mapKeys_put_subset (s : LRU K V) (k : K) (v : V) :
    mapKeys (put s k v).map ⊆ k :: mapKeys s.map := by
  unfold put
  cases h : mapFind s.map k with
  | some w =>
    simp only []
    rw [mapKeys_update]
    exact List.subset_cons_self _ _
  | none =>
    simp only []
    split
    · intro x hx
      have := mapKeys_evictLRU_subset
        { s with map := (k, v) :: s.map, order := k :: s.order, size := s.size + 1 } hx
      simpa [mapKeys_cons] using this
    · intro x hx
      simpa [mapKeys_cons] using hx

/-! ### Invariant preservation -/

theorem inv_freshLRU (cap : Nat) : Inv (freshLRU cap : LRU K V) :=
  ⟨Nat.zero_le _, List.Perm.refl _, List.nodup_nil, rfl⟩

theorem inv_mkLRU (cap : Nat) (s : LRU K V) (h : mkLRU cap = .ok s) : Inv s := by
  unfold mkLRU at h
  split at h
  · cases h
  · cases h
    exact ⟨Nat.zero_le _, List.Perm.refl _, List.nodup_nil, rfl⟩

theorem inv_get (s : LRU K V) (k : K) (h : Inv s) : Inv (get s k).2 := by
  cases hf : mapFind s.map k with
  | none =>
    simp only [get, hf]
    exact ⟨h.size_le, h.keys_perm, h.nodup, h.size_eq⟩
  | some v =>
    simp only [get, hf]
    have hmem : k ∈ s.order := h.keys_perm.mem_iff.mp (mem_mapKeys_of_find _ _ _ hf)
    have hperm : s.order.Perm (k :: s.order.erase k) := List.perm_cons_erase hmem
    exact ⟨h.size_le, h.keys_perm.trans hperm,
      List.nodup_cons.mpr ⟨h.nodup.not_mem_erase, h.nodup.erase k⟩,
      by rw [h.size_eq, hperm.length_eq]⟩

theorem inv_put (s : LRU K V) (k : K) (v : V) (h : Inv s) : Inv (put s k v) := by
  cases hf : mapFind s.map k with
  | some w =>
    rw [put_existing_eq s k v w hf]
    have hmem : k ∈ s.order := h.keys_perm.mem_iff.mp (mem_mapKeys_of_find _ _ _ hf)
    have hperm : s.order.Perm (k :: s.order.erase k) := List.perm_cons_erase hmem
    refine ⟨h.size_le, ?_, ?_, ?_⟩
    · show (mapKeys (mapUpdate s.map k v)).Perm (k :: s.order.erase k)
      rw [mapKeys_update]
      exact h.keys_perm.trans hperm
    · exact List.nodup_cons.mpr ⟨h.nodup.not_mem_erase, h.nodup.erase k⟩
    · show s.size = (k :: s.order.erase k).length
      rw [h.size_eq, hperm.length_eq]
  | none =>
    have hknotkeys : k ∉ mapKeys s.map := (mapFind_eq_none_iff s.map k).mp hf
    have hknot : k ∉ s.order := fun hmem => hknotkeys (h.keys_perm.mem_iff.mpr hmem)
    by_cases hle : s.size + 1 ≤ s.capacity
    · rw [put_fresh_no_evict s k v hf hle]
      refine ⟨hle, ?_, List.nodup_cons.mpr ⟨hknot, h.nodup⟩, ?_⟩
      · show (mapKeys ((k, v) :: s.map)).Perm (k :: s.order)
        rw [mapKeys_cons]
        exact h.keys_perm.cons k
      · show s.size + 1 = (k :: s.order).length
        simp [h.size_eq]
    · have hgt : s.capacity < s.size + 1 := Nat.not_le.mp hle
      rw [put_fresh_overflow_eq s k v hf hgt]
      have hconsnd : (k :: s.order).Nodup := List.nodup_cons.mpr ⟨hknot, h.nodup⟩
      have hlast : (k :: s.order).getLast? =
          some ((k :: s.order).getLast (List.cons_ne_nil k s.order)) :=
        List.getLast?_eq_getLast _ _
      have herase : (k :: s.order).erase ((k :: s.order).getLast (List.cons_ne_nil k s.order))
          = (k :: s.order).dropLast :=
        erase_getLast_of_nodup _ _ hlast hconsnd
      refine ⟨h.size_le, ?_, ?_, ?_⟩
      · show (mapKeys (mapErase ((k, v) :: s.map)
            ((k :: s.order).getLast (List.cons_ne_nil k s.order)))).Perm
            ((k :: s.order).dropLast)
        rw [mapKeys_erase, mapKeys_cons, ← herase]
        exact (h.keys_perm.cons k).erase _
      · exact hconsnd.sublist (List.dropLast_sublist _)
      · show s.size = (k :: s.order).dropLast.length
        rw [List.length_dropLast]
        simp [h.size_eq]

theorem inv_remove (s : LRU K V) (k : K) (h : Inv s) : Inv (remove s k).2 := by
  cases hf : mapFind s.map k with
  | none =>
    simp only [remove, hf]
    exact h
  | some v =>
    simp only [remove, hf]
    have hmem : k ∈ s.order := h.keys_perm.mem_iff.mp (mem_mapKeys_of_find _ _ _ hf)
    refine ⟨?_, ?_, h.nodup.erase k, ?_⟩
    · exact le_trans (Nat.sub_le _ _) h.size_le
    · show (mapKeys (mapErase s.map k)).Perm (s.order.erase k)
      rw [mapKeys_erase]
      exact h.keys_perm.erase k
    · show s.size - 1 = (s.order.erase k).length
      rw [List.length_erase_of_mem hmem, h.size_eq]

theorem inv_applyOp (s : LRU K V) (op : Op K V) (h : Inv s) : Inv (applyOp s op) := by
  cases op with
  | get k => exact inv_get s k h
  | put k v => exact inv_put s k v h
  | remove k => exact inv_remove s k h
  | contains k => exact h

theorem inv_runOps (s : LRU K V) (ops : List (Op K V)) (h : Inv s) : Inv (runOps s ops) := by
  induction ops generalizing s with
  | nil => exact h
  | cons op rest ih => exact ih (applyOp s op) (inv_applyOp s op h)

/-! ### Behaviour of `put` on fresh keys -/

theorem put_mem (s : LRU K V) (k : K) (v : V) (h : Inv s) (hcap : 0 < s.capacity) :
    mapFind (put s k v).map k = some v := by
  cases hf : mapFind s.map k with
  | some w =>
    rw [put_existing_eq s k v w hf]
    exact mapFind_update_self s.map k v w hf
  | none =>
    by_cases hle : s.size + 1 ≤ s.capacity
    · rw [put_fresh_no_evict s k v hf hle]
      simp [mapFind]
    · have hgt : s.capacity < s.size + 1 := Nat.not_le.mp hle
      rw [put_fresh_overflow_eq s k v hf hgt]
      have hsz : s.size = s.capacity := Nat.le_antisymm h.size_le (by omega)
      have hne : s.order ≠ [] := by
        intro hnil
        rw [h.size_eq, hnil] at hsz
        simp at hsz
        omega
      have hknot : k ∉ s.order := fun hmem =>
        ((mapFind_eq_none_iff s.map k).mp hf) (h.keys_perm.mem_iff.mpr hmem)
      have hlk : (k :: s.order).getLast (List.cons_ne_nil k s.order)
          = s.order.getLast hne := List.getLast_cons hne
      have hne2 : ¬ k = (k :: s.order).getLast (List.cons_ne_nil k s.order) := by
        rw [hlk]
        intro hh
        exact hknot (hh ▸ List.getLast_mem hne)
      show mapFind (mapErase ((k, v) :: s.map)
        ((k :: s.order).getLast (List.cons_ne_nil k s.order))) k = some v
      simp [mapErase, hne2, mapFind]

theorem put_fresh_order (s : LRU K V) (k : K) (v : V) (h : Inv s)
    (hf : mapFind s.map k = none) :
    (put s k v).order = (k :: s.order).take s.capacity := by
  by_cases hle : s.size + 1 ≤ s.capacity
  · rw [put_fresh_no_evict s k v hf hle]
    show k :: s.order = (k :: s.order).take s.capacity
    rw [List.take_of_length_le (by simp [← h.size_eq]; omega)]
  · have hgt : s.capacity < s.size + 1 := Nat.not_le.mp hle
    rw [put_fresh_overflow_eq s k v hf hgt]
    show (k :: s.order).dropLast = (k :: s.order).take s.capacity
    have hsz : s.size = s.capacity := Nat.le_antisymm h.size_le (by omega)
    rw [List.dropLast_eq_take]
    congr 1
    simp [← h.size_eq, hsz]

theorem runPuts_order (f : K → V) (ks : List K) :
    ∀ (s : LRU K V), Inv s → ks.Nodup → (∀ j ∈ ks, j ∉ mapKeys s.map) →
      (runOps s (ks.map fun k => Op.put k (f k))).order
        = (ks.reverse ++ s.order).take s.capacity := by
  induction ks with
  | nil =>
    intro s hInv _ _
    have htake : s.order.take s.capacity = s.order :=
      List.take_of_length_le (by rw [← hInv.size_eq]; exact hInv.size_le)
    simpa [runOps] using htake.symm
  | cons k rest ih =>
    intro s hInv hnd hfresh
    have hknotkeys : k ∉ mapKeys s.map := hfresh k (List.mem_cons_self k rest)
    have hf : mapFind s.map k = none := (mapFind_eq_none_iff s.map k).mpr hknotkeys
    have hstep : (put s k (f k)).order = (k :: s.order).take s.capacity :=
      put_fresh_order s k (f k) hInv hf
    have hcap2 : (put s k (f k)).capacity = s.capacity := put_capacity s k (f k)
    have hInv2 : Inv (put s k (f k)) := inv_put s k (f k) hInv
    have hfresh2 : ∀ j ∈ rest, j ∉ mapKeys (put s k (f k)).map := by
      intro j hj hmem
      have hsub := mapKeys_put_subset s k (f k) hmem
      rcases List.mem_cons.mp hsub with rfl | hmem2
      · exact (List.nodup_cons.mp hnd).1 hj
      · exact hfresh j (List.mem_cons_of_mem _ hj) hmem2
    show (runOps (put s k (f k)) (rest.map fun j => Op.put j (f j))).order
      = ((k :: rest).reverse ++ s.order).take s.capacity
    rw [ih (put s k (f k)) hInv2 (List.nodup_cons.mp hnd).2 hfresh2, hcap2, hstep,
      take_append_take, List.reverse_cons, List.append_assoc, List.singleton_append]

/-! ### The claims -/

/-- C1: for a cache constructed with any positive capacity (`mkLRU` only
succeeds on positive capacity), after every sequence of completed get, put,
remove and contains operations the entry count satisfies
0 ≤ size ≤ capacity, the keys of the index are exactly the keys of the
nodes on the recency list between the sentinels (same multiset, hence same
set), and both structures have the same count, equal to `size`. -/
theorem c1_invariant_all_ops (cap : Nat) (s0 : LRU K V) (h0 : mkLRU cap = .ok s0)
    (ops : List (Op K V)) :
    Inv (runOps s0 ops)
    ∧ (runOps s0 ops).size ≤ (runOps s0 ops).capacity
    ∧ (mapKeys (runOps s0 ops).map).Perm (runOps s0 ops).order
    ∧ (mapKeys (runOps s0 ops).map).length = (runOps s0 ops).size
    ∧ (runOps s0 ops).order.length = (runOps s0 ops).size := by
  have hInv : Inv (runOps s0 ops) := inv_runOps s0 ops (inv_mkLRU cap s0 h0)
  refine ⟨hInv, hInv.size_le, hInv.keys_perm, ?_, hInv.size_eq.symm⟩
  rw [hInv.keys_perm.length_eq, hInv.size_eq]

theorem c1_invariant_all_ops_witness :
    Inv (runOps (freshLRU 2 : LRU Nat Nat)
      [Op.put 1 1, Op.put 2 2, Op.put 3 3, Op.get 2, Op.remove 1]) :=
  (c1_invariant_all_ops 2 (freshLRU 2) rfl
    [Op.put 1 1, Op.put 2 2, Op.put 3 3, Op.get 2, Op.remove 1]).1

/-- C2: when a put of a new key overflows a full cache, exactly one entry
is evicted — the least-recently-used one, i.e. the node adjacent to the
tail sentinel (the last key of the recency list) — so that size = capacity
when put returns; and on the spec's capacity-3 trace put(a,1), put(b,2),
put(c,3), get(a), put(d,4) with a = 1, b = 2, c = 3, d = 4, the evicted key
is b = 2 while a, c, d remain present. -/
theorem c2_eviction (s : LRU K V) (k : K) (v : V) (h : Inv s)
    (hf : mapFind s.map k = none) (hfull : s.size = s.capacity)
    (hcap : 0 < s.capacity) :
    ((put s k v).size = s.capacity
      ∧ (put s k v).order = k :: s.order.dropLast
      ∧ (∀ hne : s.order ≠ [],
          mapFind (put s k v).map (s.order.getLast hne) = none
          ∧ s.order.getLast hne ∉ (put s k v).order))
    ∧ ((contains exampleCache 2).1 = false
      ∧ (contains exampleCache 1).1 = true
      ∧ (contains exampleCache 3).1 = true
      ∧ (contains exampleCache 4).1 = true
      ∧ exampleCache.size = 3) := by
  have hgt : s.capacity < s.size + 1 := by omega
  have hne : s.order ≠ [] := by
    intro hnil
    rw [h.size_eq, hnil] at hfull
    simp at hfull
    omega
  have hknot : k ∉ s.order := fun hmem =>
    ((mapFind_eq_none_iff s.map k).mp hf) (h.keys_perm.mem_iff.mpr hmem)
  have hkeysnd : (mapKeys s.map).Nodup := h.keys_perm.nodup_iff.mpr h.nodup
  refine ⟨⟨?_, ?_, ?_⟩, by decide, by decide, by decide, by decide, by decide⟩
  · rw [put_fresh_overflow_eq s k v hf hgt]
    exact hfull
  · rw [put_fresh_overflow_eq s k v hf hgt]
    show (k :: s.order).dropLast = k :: s.order.dropLast
    exact dropLast_cons_of_ne_nil k s.order hne
  · intro hne2
    rw [put_fresh_overflow_eq s k v hf hgt]
    have hlk : (k :: s.order).getLast (List.cons_ne_nil k s.order)
        = s.order.getLast hne2 := List.getLast_cons hne2
    have hlast : s.order.getLast? = some (s.order.getLast hne2) :=
      List.getLast?_eq_getLast _ _
    constructor
    · show mapFind (mapErase ((k, v) :: s.map)
        ((k :: s.order).getLast (List.cons_ne_nil k s.order))) (s.order.getLast hne2) = none
      rw [hlk]
      apply mapFind_erase_self
      rw [mapKeys_cons]
      exact List.nodup_cons.mpr ⟨fun hmem => hknot (h.keys_perm.mem_iff.mp hmem), hkeysnd⟩
    · show s.order.getLast hne2 ∉ (k :: s.order).dropLast
      rw [dropLast_cons_of_ne_nil k s.order hne2]
      intro hmem
      rcases List.mem_cons.mp hmem with heq | hmem2
      · exact hknot (heq ▸ List.getLast_mem hne2)
      · exact not_mem_dropLast_of_getLast s.order _ hlast h.nodup hmem2

theorem c2_eviction_witness :
    (put exampleCachePre 4 4).size = exampleCachePre.capacity
    ∧ (put exampleCachePre 4 4).order = 4 :: exampleCachePre.order.dropLast := by
  have h := c2_eviction exampleCachePre 4 4
    ⟨by decide, by decide, by decide, by decide⟩ (by decide) (by decide) (by decide)
  exact ⟨h.1.1, h.1.2.1⟩

/-- C3: get(key) fails with KeyNotFound exactly when the key is absent; on
a present key it returns the stored value, moves the entry to the front of
the recency list and increments hits by exactly 1 (misses unchanged); on an
absent key it increments misses by exactly 1 (hits unchanged) and leaves
the index, the recency order and the size unchanged; every get increments
exactly one of the two counters, so hits + misses always grows by 1. -/
theorem c3_get_contract (s : LRU K V) (k : K) :
    ((get s k).1 = Except.error LRUError.keyNotFound ↔ mapFind s.map k = none)
    ∧ (∀ v, mapFind s.map k = some v →
        (get s k).1 = Except.ok v
        ∧ (get s k).2.hits = s.hits + 1
        ∧ (get s k).2.misses = s.misses
        ∧ (get s k).2.order = k :: s.order.erase k
        ∧ (get s k).2.map = s.map
        ∧ (get s k).2.size = s.size)
    ∧ (mapFind s.map k = none →
        (get s k).2.misses = s.misses + 1
        ∧ (get s k).2.hits = s.hits
        ∧ (get s k).2.order = s.order
        ∧ (get s k).2.map = s.map
        ∧ (get s k).2.size = s.size)
    ∧ (get s k).2.hits + (get s k).2.misses = s.hits + s.misses + 1 := by
  cases hf : mapFind s.map k with
  | none =>
    refine ⟨by simp [get, hf], ?_, ?_, ?_⟩
    · intro v hv
      cases hv
    · intro _
      simp [get, hf]
    · simp [get, hf]
      omega
  | some w =>
    refine ⟨by simp [get, hf], ?_, ?_, ?_⟩
    · intro v hv
      cases hv
      simp [get, hf]
    · intro hv
      cases hv
    · simp [get, hf]
      omega

theorem c3_get_contract_witness :
    (get sEx 1).1 = Except.ok 5 ∧ (get sEx 2).2.misses = sEx.misses + 1 :=
  ⟨((c3_get_contract sEx 1).2.1 5 (by decide)).1,
    ((c3_get_contract sEx 2).2.2.1 (by decide)).1⟩

/-- C4: a put on an already-present key replaces the stored value, moves
the entry to the front of the recency list and leaves size unchanged; and
put(k,v1) followed by put(k,v2) leaves size as after the first put while
get(k) then returns v2. -/
theorem c4_put_update (s : LRU K V) (k : K) (v1 v2 : V) (h : Inv s)
    (hcap : 0 < s.capacity) :
    (∀ w, mapFind s.map k = some w →
        (put s k v2).size = s.size
        ∧ (put s k v2).order = k :: s.order.erase k
        ∧ mapFind (put s k v2).map k = some v2)
    ∧ (put (put s k v1) k v2).size = (put s k v1).size
    ∧ (get (put (put s k v1) k v2) k).1 = Except.ok v2 := by
  have hmem1 : mapFind (put s k v1).map k = some v1 := put_mem s k v1 h hcap
  have hfind2 : mapFind (put (put s k v1) k v2).map k = some v2 := by
    rw [put_existing_eq (put s k v1) k v2 v1 hmem1]
    exact mapFind_update_self _ _ _ _ hmem1
  refine ⟨?_, by rw [put_existing_eq (put s k v1) k v2 v1 hmem1], by simp [get, hfind2]⟩
  intro w hw
  rw [put_existing_eq s k v2 w hw]
  exact ⟨rfl, rfl, mapFind_update_self _ _ _ _ hw⟩

theorem c4_put_update_witness :
    (put sEx 1 9).size = sEx.size ∧ (get (put (put sEx 1 7) 1 9) 1).1 = Except.ok 9 := by
  have h := c4_put_update sEx 1 7 9 ⟨by decide, by decide, by decide, by decide⟩ (by decide)
  exact ⟨(h.1 5 (by decide)).1, h.2.2⟩

/-- C5: remove(key) returns true exactly when the key was present; on a
present key the entry leaves both the index and the recency list, size
decreases by exactly 1, a subsequent get(key) fails with KeyNotFound, and
the hit/miss counters are untouched; on an absent key it returns false and
the entire state is unchanged. -/
theorem c5_remove_contract (s : LRU K V) (k : K) (h : Inv s) :
    ((remove s k).1 = true ↔ k ∈ mapKeys s.map)
    ∧ (∀ v, mapFind s.map k = some v →
        (remove s k).2.size + 1 = s.size
        ∧ (remove s k).2.order = s.order.erase k
        ∧ mapFind (remove s k).2.map k = none
        ∧ (get (remove s k).2 k).1 = Except.error LRUError.keyNotFound
        ∧ (remove s k).2.hits = s.hits
        ∧ (remove s k).2.misses = s.misses)
    ∧ (mapFind s.map k = none → (remove s k).1 = false ∧ (remove s k).2 = s) := by
  cases hf : mapFind s.map k with
  | none =>
    refine ⟨?_, ?_, fun _ => ⟨by simp [remove, hf], by simp [remove, hf]⟩⟩
    · simp only [remove, hf]
      simp [(mapFind_eq_none_iff s.map k).mp hf]
    · intro v hv
      cases hv
  | some w =>
    have hmemk : k ∈ mapKeys s.map := mem_mapKeys_of_find _ _ _ hf
    have hmemo : k ∈ s.order := h.keys_perm.mem_iff.mp hmemk
    have hpos : 0 < s.size := by
      rw [h.size_eq]
      exact List.length_pos.mpr (List.ne_nil_of_mem hmemo)
    have hkeysnd : (mapKeys s.map).Nodup := h.keys_perm.nodup_iff.mpr h.nodup
    have hgone : mapFind (mapErase s.map k) k = none := mapFind_erase_self s.map k hkeysnd
    refine ⟨by simp [remove, hf, hmemk], ?_, ?_⟩
    · intro v hv
      refine ⟨by simp [remove, hf]; omega, by simp [remove, hf], ?_, ?_, ?_, ?_⟩
      · simp only [remove, hf]
        exact hgone
      · simp only [remove, hf, get]
        rw [hgone]
      · simp [remove, hf]
      · simp [remove, hf]
    · intro hv
      cases hv

theorem c5_remove_contract_witness :
    (remove sEx 1).2.size + 1 = sEx.size
    ∧ (get (remove sEx 1).2 1).1 = Except.error LRUError.keyNotFound := by
  have h := c5_remove_contract sEx 1 ⟨by decide, by decide, by decide, by decide⟩
  exact ⟨(h.2.1 5 (by decide)).1, (h.2.1 5 (by decide)).2.2.2.1⟩

/-- C6: contains(key) answers membership and never changes the cache: the
returned state is identical to the input state — entries, recency order,
size and the hit/miss counters included — and any number of repeated
contains calls leaves the state exactly as calling nothing. -/
theorem c6_contains_pure (s : LRU K V) (k : K) :
    ((contains s k).1 = true ↔ k ∈ mapKeys s.map)
    ∧ (contains s k).2 = s
    ∧ (∀ n : Nat, runOps s (List.replicate n (Op.contains k)) = s) := by
  refine ⟨?_, rfl, ?_⟩
  · show (mapFind s.map k).isSome = true ↔ k ∈ mapKeys s.map
    constructor
    · intro hs
      cases hf : mapFind s.map k with
      | none => rw [hf] at hs; cases hs
      | some v => exact mem_mapKeys_of_find _ _ _ hf
    · intro hmem
      cases hf : mapFind s.map k with
      | none => exact absurd hmem ((mapFind_eq_none_iff s.map k).mp hf)
      | some v => rfl
  · intro n
    induction n with
    | zero => rfl
    | succ m ih =>
      rw [List.replicate_succ]
      exact ih

/-- C7: construction fails with InvalidCapacity exactly when the requested
capacity is 0; on failure no cache value is produced; on success the cache
starts with size 0, hits 0 and misses 0 and carries the requested capacity,
which no subsequent operation ever changes. -/
theorem c7_construction (cap : Nat) :
    ((mkLRU cap : Except LRUError (LRU K V)) = Except.error LRUError.invalidCapacity
        ↔ cap = 0)
    ∧ (cap = 0 → ∀ s : LRU K V, mkLRU cap ≠ Except.ok s)
    ∧ (∀ s : LRU K V, mkLRU cap = Except.ok s →
        s.size = 0 ∧ s.hits = 0 ∧ s.misses = 0 ∧ s.capacity = cap)
    ∧ (∀ (s : LRU K V) (op : Op K V), (applyOp s op).capacity = s.capacity) := by
  refine ⟨?_, ?_, ?_, fun s op => applyOp_capacity s op⟩
  · unfold mkLRU
    by_cases h : cap = 0 <;> simp [h]
  · intro h s
    unfold mkLRU
    simp [h]
  · intro s hs
    unfold mkLRU at hs
    split at hs
    · cases hs
    · cases hs
      exact ⟨rfl, rfl, rfl, rfl⟩

theorem c7_construction_witness :
    (freshLRU 5 : LRU Nat Nat).size = 0
    ∧ (freshLRU 5 : LRU Nat Nat).hits = 0
    ∧ (freshLRU 5 : LRU Nat Nat).misses = 0
    ∧ (freshLRU 5 : LRU Nat Nat).capacity = 5 :=
  (c7_construction 5).2.2.1 (freshLRU 5) rfl

/-- C8 counterexample to the claim as stated: inserting capacity + 1 = 2
distinct keys (0 then 1) into a fresh capacity-1 cache leaves exactly one
key present, so the remaining keys cannot be "the capacity + 1
most-recently-used ones" (that would be both inserted keys): key 0 — one of
the 2 most-recently-used keys — is absent. -/
theorem c8_counterexample :
    (runOps (freshLRU 1 : LRU Nat Nat) [Op.put 0 10, Op.put 1 11]).size = 1
    ∧ (contains (runOps (freshLRU 1 : LRU Nat Nat) [Op.put 0 10, Op.put 1 11]) 0).1 = false
    ∧ (contains (runOps (freshLRU 1 : LRU Nat Nat) [Op.put 0 10, Op.put 1 11]) 1).1 = true := by
  decide

/-- C8 (amended): starting from a fresh cache of capacity c, inserting
c + 1 distinct keys with put leaves exactly c keys present, and the keys
that remain are the c most-recently-used ones — the final recency list is
the reversed insertion order truncated to its first c keys, and the index
holds exactly those keys. -/
theorem c8_overflow_amended (cap : Nat) (s0 : LRU K V) (h0 : mkLRU cap = .ok s0)
    (ks : List K) (f : K → V) (hnd : ks.Nodup) (hlen : ks.length = cap + 1) :
    (runOps s0 (ks.map fun k => Op.put k (f k))).size = cap
    ∧ (runOps s0 (ks.map fun k => Op.put k (f k))).order = ks.reverse.take cap
    ∧ (mapKeys (runOps s0 (ks.map fun k => Op.put k (f k))).map).Perm
        (ks.reverse.take cap) := by
  have hs0 : s0 = freshLRU cap := by
    unfold mkLRU at h0
    split at h0
    · cases h0
    · cases h0
      rfl
  subst hs0
  have hInv0 : Inv (freshLRU cap : LRU K V) := inv_freshLRU cap
  have hfresh : ∀ j ∈ ks, j ∉ mapKeys (freshLRU cap : LRU K V).map := by
    intro j _ hmem
    cases hmem
  have horder : (runOps (freshLRU cap) (ks.map fun k => Op.put k (f k))).order
      = ks.reverse.take cap := by
    rw [runPuts_order f ks (freshLRU cap) hInv0 hnd hfresh]
    simp [freshLRU]
  have hInvf : Inv (runOps (freshLRU cap) (ks.map fun k => Op.put k (f k))) :=
    inv_runOps _ _ hInv0
  have hsize : (runOps (freshLRU cap) (ks.map fun k => Op.put k (f k))).size = cap := by
    rw [hInvf.size_eq, horder, List.length_take, List.length_reverse, hlen]
    omega
  exact ⟨hsize, horder, horder ▸ hInvf.keys_perm⟩

theorem c8_overflow_amended_witness :
    (runOps (freshLRU 2 : LRU Nat Nat) ([0, 1, 2].map fun k => Op.put k k)).size = 2
    ∧ (runOps (freshLRU 2 : LRU Nat Nat) ([0, 1, 2].map fun k => Op.put k k)).order
        = [2, 1] := by
  have h := c8_overflow_amended 2 (freshLRU 2) rfl [0, 1, 2] (fun k => k)
    (by decide) (by decide)
  exact ⟨h.1, h.2.1⟩

/-- C10: the constructor's default argument: calling the constructor with
no explicit capacity succeeds and yields the empty cache with capacity 10. -/
theorem c10_default_capacity :
    (mkLRUDefault : Except LRUError (LRU K V)) = Except.ok (freshLRU 10)
    ∧ (freshLRU 10 : LRU K V).capacity = 10 :=
  ⟨rfl, rfl⟩

end LRUSpec
